import Mathlib

/-!
Verification of the bibliography-management scripts
(`scripts/build_taxonomies.py` and `scripts/setup_folders.py`).

The Python code is shallowly embedded: strings are `List Char` / `String`,
the concrete regular expressions of `parse_bibtex_entry` are translated into
deterministic scanning functions (each regex used by the script is
backtracking-free, so a direct functional translation is exact), and the
filesystem-facing drivers are modelled as functions over explicit directory
listings.  Case-insensitivity (`re.IGNORECASE`), whitespace classes (`\s`),
digits (`\d`), word characters (`\w`) and `str.strip`/`str.title` are
modelled at the ASCII level, which is exact for ASCII input.
-/

namespace BibTax

/-- ASCII lower-casing of one character (models `re.IGNORECASE` matching of
the ASCII field-name letters used by the scripts). -/
def lowerChar (c : Char) : Char :=
  if 65 ≤ c.toNat ∧ c.toNat ≤ 90 then Char.ofNat (c.toNat + 32) else c

/-- The characters matched by the regex class `\s` (ASCII part). -/
def isSpace (c : Char) : Bool :=
  c = ' ' || c = '\t' || c = '\n' || c = '\r' || c = '\x0b' || c = '\x0c'

/-- The characters matched by the regex class `\w` (ASCII part). -/
def isWordChar (c : Char) : Bool :=
  (65 ≤ c.toNat && c.toNat ≤ 90) || (97 ≤ c.toNat && c.toNat ≤ 122) ||
  (48 ≤ c.toNat && c.toNat ≤ 57) || c = '_'

/-- Python `str.strip()` (ASCII whitespace): drop leading and trailing
whitespace. -/
def pyStrip (s : List Char) : List Char :=
  ((s.dropWhile isSpace).reverse.dropWhile isSpace).reverse

/-- Case-insensitively consume the literal characters of `name` from the
front of `s`; return the remainder on success. -/
def stripNameCI : List Char → List Char → Option (List Char)
  | [], s => some s
  | _ :: _, [] => none
  | c :: n, d :: s => if lowerChar d = lowerChar c then stripNameCI n s else none

/-- Consume one expected literal character. -/
def expectChar (c : Char) (s : List Char) : Option (List Char) :=
  match s with
  | d :: t => if d = c then some t else none
  | [] => none

/-- Match `([^}]+)\}` at the front of `s3`: the maximal run of non-`\x7d`
characters, which must be nonempty and followed by a `\x7d`. -/
def braceValue (s3 : List Char) : Option (List Char) :=
  match s3.dropWhile (fun x => x ≠ '\x7d') with
  | [] => none
  | _ :: _ =>
    if s3.takeWhile (fun x => x ≠ '\x7d') = [] then none
    else some (s3.takeWhile (fun x => x ≠ '\x7d'))

/-- After a field name has been consumed, match `\s*=\s*\{([^}]+)\}` and
return the capture.  The regex is deterministic: `\s*` is a maximal
whitespace run and `[^}]+` is the maximal run of non-`\x7d` characters. -/
def afterName (s1 : List Char) : Option (List Char) :=
  (expectChar '=' (s1.dropWhile isSpace)).bind fun s2 =>
    (expectChar '\x7b' (s2.dropWhile isSpace)).bind braceValue

/-- Attempt the pattern `<name>\s*=\s*\{([^}]+)\}` anchored at the start of
`s` (case-insensitive on the name). -/
def matchFieldAt (name s : List Char) : Option (List Char) :=
  (stripNameCI name s).bind afterName

/-- Leftmost search: `re.search` tries the anchored match at every start
position from left to right. -/
def searchWith (m : List Char → Option (List Char)) : List Char → Option (List Char)
  | [] => m []
  | c :: s =>
    match m (c :: s) with
    | some v => some v
    | none => searchWith m s

/-- `re.search(r'<name>\s*=\s*\{([^}]+)\}', s, re.IGNORECASE)`, returning
the first capture group. -/
def searchField (name s : List Char) : Option (List Char) :=
  searchWith (matchFieldAt name) s

/-- After `year` has been consumed, match `\s*=\s*\{?(\d{4})\}?` and return
the four captured digits. -/
def afterYear (s1 : List Char) : Option (List Char) :=
  match s1.dropWhile isSpace with
  | '=' :: s2 =>
    let s3 := s2.dropWhile isSpace
    let s4 := match s3 with
      | '\x7b' :: r => r
      | _ => s3
    let d := s4.take 4
    if d.length = 4 ∧ d.all Char.isDigit then some d else none
  | _ => none

/-- Anchored attempt of the year pattern. -/
def matchYearAt (s : List Char) : Option (List Char) :=
  (stripNameCI ['y', 'e', 'a', 'r'] s).bind afterYear

/-- `re.match(r'^@(\w+)\{([^,]+),', s)`, returning the second capture group
(the entry key up to the first comma). -/
def matchEntryId (s : List Char) : Option (List Char) :=
  match s with
  | '@' :: s1 =>
    if s1.takeWhile isWordChar = [] then none
    else
      match s1.dropWhile isWordChar with
      | '\x7b' :: s2 =>
        if s2.takeWhile (fun c => c ≠ ',') = [] then none
        else
          match s2.dropWhile (fun c => c ≠ ',') with
          | ',' :: _ => some (s2.takeWhile (fun c => c ≠ ','))
          | _ => none
      | _ => none
  | _ => none

/-- Field-name character lists. -/
def titleName : List Char := ['t', 'i', 't', 'l', 'e']

def authorName : List Char := ['a', 'u', 't', 'h', 'o', 'r']

def journalName : List Char := ['j', 'o', 'u', 'r', 'n', 'a', 'l']

def booktitleName : List Char := ['b', 'o', 'o', 'k', 't', 'i', 't', 'l', 'e']

def abstractName : List Char := ['a', 'b', 's', 't', 'r', 'a', 'c', 't']

/-- The Citation Record built by `parse_bibtex_entry`. -/
structure Entry where
  id : String
  title : String
  authors : String
  year : String
  venue : String
  abstract : String
  bibtex : String
deriving DecidableEq, Repr

/-- The string value stored for one `title/author/journal/booktitle/abstract`
style field: the capture stripped of surrounding whitespace, or `""`. -/
def fieldStr (name s : List Char) : String :=
  match searchField name s with
  | some v => String.mk (pyStrip v)
  | none => ""

/-- Embedding of `parse_bibtex_entry` from `scripts/build_taxonomies.py`. -/
def parse_bibtex_entry (bib_content : String) : Entry :=
  let cs := bib_content.data
  { id := match matchEntryId cs with
      | some k => String.mk (pyStrip k)
      | none => ""
    title := fieldStr titleName cs
    authors := fieldStr authorName cs
    year := match searchWith matchYearAt cs with
      | some d => String.mk d
      | none => ""
    venue := match searchField journalName cs with
      | some v => String.mk (pyStrip v)
      | none =>
        match searchField booktitleName cs with
        | some v => String.mk (pyStrip v)
        | none => ""
    abstract := match searchField abstractName cs with
      | some v => String.mk (pyStrip v)
      | none => "Abstract not available."
    bibtex := String.mk (pyStrip cs) }

/-- One row of the static `CATEGORY_INFO` table. -/
structure CategoryMeta where
  key : String
  name : String
  description : String

/-- The static category table of `build_taxonomies.py` (the same ten keys
are duplicated in `setup_folders.py`). -/
def CATEGORY_INFO : List CategoryMeta :=
  [⟨"surveys", "Surveys and Bibliometric Analyses",
    "Literature and systematic reviews of long-tailed learning in healthcare"⟩,
   ⟨"data-balancing", "Data Balancing",
    "Resampling and synthetic data generation techniques for addressing class imbalance"⟩,
   ⟨"neural-architecture", "Neural Architecture",
    "Specialized network designs and architectural modifications for imbalanced data"⟩,
   ⟨"feature-enrichment", "Feature Enrichment",
    "Representation learning to produce more discriminative embeddings for minority classes"⟩,
   ⟨"logits-adjustment", "Logits Adjustment",
    "Modify classifier outputs to compensate for class frequency disparities"⟩,
   ⟨"loss-functions", "Loss Functions",
    "Loss function design for class-imbalanced learning"⟩,
   ⟨"foundation-models", "Foundation Models",
    "Addressing long-tailed distributions through transfer learning and efficient adaptation."⟩,
   ⟨"multimodality", "Multi-modality",
    "Multi-modal learning approaches addressing missing modalities and class imbalance"⟩,
   ⟨"fairness", "Fairness, Bias, and Health Equity",
    "Methods addressing demographic imbalances and algorithmic fairness in healthcare"⟩,
   ⟨"rare-disease", "Rare Disease and Epidemiological Modeling",
    "Specialized approaches for extremely rare conditions and few-shot medical scenarios"⟩]

/-- ASCII upper-casing of one character. -/
def upperChar (c : Char) : Char :=
  if 97 ≤ c.toNat ∧ c.toNat ≤ 122 then Char.ofNat (c.toNat - 32) else c

/-- Python `str.title()` on ASCII letters: a letter after a non-letter is
upper-cased, a letter after a letter is lower-cased. -/
def pyTitleAux : Bool → List Char → List Char
  | _, [] => []
  | prevCased, c :: s =>
    if (65 ≤ c.toNat ∧ c.toNat ≤ 90) ∨ (97 ≤ c.toNat ∧ c.toNat ≤ 122) then
      (if prevCased then lowerChar c else upperChar c) :: pyTitleAux true s
    else c :: pyTitleAux false s

/-- `category_name.replace('-', ' ')` (single-character replacement). -/
def dashToSpace (s : List Char) : List Char :=
  s.map (fun c => if c = '-' then ' ' else c)

/-- `CATEGORY_INFO.get(name, {'name': name.replace('-',' ').title(),
'description': ''})`. -/
def lookupCategory (n : String) : String × String :=
  match CATEGORY_INFO.find? (fun m => m.key = n) with
  | some m => (m.name, m.description)
  | none => (String.mk (pyTitleAux false (dashToSpace n.data)), "")

/-- A file name matched by `glob('*.bib')`: ends in `.bib` and is not a
hidden file (a leading `*` does not match a leading dot). -/
def isBibFile (n : String) : Bool :=
  List.isSuffixOf ['.', 'b', 'i', 'b'] n.data && !(n.data.head? == some '.')

/-- Ordering of directory entries by file name, as produced by `sorted()`
over paths sharing one parent directory. -/
def byName (a b : String × String) : Prop := a.1 ≤ b.1

instance : DecidableRel byName := fun a b => inferInstanceAs (Decidable (a.1 ≤ b.1))

instance : IsTotal (String × String) byName := ⟨fun a b => le_total a.1 b.1⟩

instance : IsTrans (String × String) byName := ⟨fun _ _ _ h1 h2 => le_trans h1 h2⟩

/-- The aggregate JSON document for one category. -/
structure TaxonomyDoc where
  category : String
  description : String
  papers : List Entry
deriving DecidableEq, Repr

/-- Embedding of `process_category`: a directory is a listing of
(file name, file content) pairs; the `.bib` files are read in sorted name
order and each is parsed into one Citation Record. -/
def process_category (dirName : String) (files : List (String × String)) : TaxonomyDoc :=
  let meta := lookupCategory dirName
  let bibs := List.insertionSort byName (files.filter (fun f => isBibFile f.1))
  { category := meta.1
    description := meta.2
    papers := bibs.map (fun f => parse_bibtex_entry f.2) }

/-- Ordering of subdirectories by name. -/
def dirByName (a b : String × List (String × String)) : Prop := a.1 ≤ b.1

instance : DecidableRel dirByName := fun a b => inferInstanceAs (Decidable (a.1 ≤ b.1))

/-- Embedding of `build_all_taxonomies`: the citations root is a listing of
(subdirectory name, subdirectory listing) pairs.  Subdirectories are
visited in sorted order; only names present in `CATEGORY_INFO` are
processed.  Returns the written JSON files (name, document) and the stats
mapping (category key, paper count). -/
def build_all_taxonomies (dirs : List (String × List (String × String))) :
    List (String × TaxonomyDoc) × List (String × Nat) :=
  let ds := List.insertionSort dirByName dirs
  let known := ds.filter (fun d => CATEGORY_INFO.any (fun m => m.key = d.1))
  (known.map (fun d => (d.1 ++ ".json", process_category d.1 d.2)),
   known.map (fun d => (d.1, (process_category d.1 d.2).papers.length)))

/-- The category keys of `setup_folders.py`, in dictionary (insertion)
order. -/
def CATEGORIES_keys : List String :=
  ["surveys", "data-balancing", "neural-architecture", "feature-enrichment",
   "logits-adjustment", "loss-functions", "foundation-models", "multimodality",
   "fairness", "rare-disease"]

/-- The observable outcome of a `setup_folders.py` run: the set of existing
directories (as a list of names) and the reported created/existing
counters. -/
structure SetupState where
  dirs : List String
  created : Nat
  existing : Nat
deriving DecidableEq, Repr

/-- One iteration of the folder loop: `mkdir` the category folder unless it
already exists, updating the corresponding counter. -/
def setupStep (st : SetupState) (k : String) : SetupState :=
  if k ∈ st.dirs then { st with existing := st.existing + 1 }
  else { dirs := k :: st.dirs, created := st.created + 1, existing := st.existing }

/-- `citations_dir.mkdir(exist_ok=True)`. -/
def ensureDir (d : String) (dirs : List String) : List String :=
  if d ∈ dirs then dirs else d :: dirs

/-- Embedding of `setup_folders.main` acting on an initial directory set:
create the citations root if missing, then walk the category list. -/
def setup_main (dirs0 : List String) : SetupState :=
  CATEGORIES_keys.foldl setupStep ⟨ensureDir "citations" dirs0, 0, 0⟩

/-- An entry text consisting of one field assignment with an empty
brace-delimited value, surrounded by arbitrary text. -/
def emptyFieldEntry (p name w1 w2 q : List Char) : String :=
  String.mk (p ++ (name ++ (w1 ++ '=' :: (w2 ++ '\x7b' :: '\x7d' :: q))))

/-! ### Character-level facts -/

/-- A field name consisting of lower-case ASCII letters. -/
def allLowerAlpha (n : List Char) : Prop := ∀ c ∈ n, 97 ≤ c.toNat ∧ c.toNat ≤ 122

instance (n : List Char) : Decidable (allLowerAlpha n) :=
  inferInstanceAs (Decidable (∀ c ∈ n, _ ∧ _))

/-- `name` matches case-insensitively at the front of `s`. -/
def isCIPrefixOf (name s : List Char) : Bool := (stripNameCI name s).isSome

/-- `name` occurs case-insensitively somewhere in `s` (the spec's notion of
a field name being located by scanning). -/
def ciOccurs (name s : List Char) : Bool := s.tails.any (fun t => isCIPrefixOf name t)

/-- No case-insensitive occurrence of `n` strictly inside `m` (at offset
`j ≥ 1`, fully contained). -/
def innerFree (n m : List Char) : Prop :=
  ∀ j < m.length, 1 ≤ j → j + n.length ≤ m.length →
    ((m.drop j).take n.length).map lowerChar ≠ n.map lowerChar

instance (n m : List Char) : Decidable (innerFree n m) :=
  inferInstanceAs (Decidable (∀ j < m.length, _))

/-- No nonempty proper suffix of a case-insensitive match of `n` can be a
case-insensitive match of a prefix of `m` (rules out matches of `n` that
start before `m` and continue into it). -/
def crossFree (n m : List Char) : Prop :=
  ∀ i < n.length, 1 ≤ i → n.length - i ≤ m.length →
    (m.take (n.length - i)).map lowerChar ≠ (n.drop i).map lowerChar

instance (n m : List Char) : Decidable (crossFree n m) :=
  inferInstanceAs (Decidable (∀ i < n.length, _))

theorem lowerChar_of_lower {c : Char} (h1 : 97 ≤ c.toNat) (h2 : c.toNat ≤ 122) :
    lowerChar c = c := by
  unfold lowerChar
  rw [if_neg]
  omega

theorem isSpace_elim {c : Char} (h : isSpace c = true) :
    lowerChar c = c ∧ ¬(97 ≤ c.toNat ∧ c.toNat ≤ 122) := by
  simp only [isSpace, Bool.or_eq_true, decide_eq_true_eq] at h
  rcases h with ((((h | h) | h) | h) | h) | h <;> subst h <;> exact ⟨by decide, by decide⟩

/-! ### Characterisation of `stripNameCI` -/

theorem stripNameCI_eq_some {n : List Char} : ∀ {s t : List Char},
    stripNameCI n s = some t ↔ ∃ pre, s = pre ++ t ∧ pre.map lowerChar = n.map lowerChar := by
  induction n with
  | nil =>
    intro s t
    constructor
    · intro h
      exact ⟨[], by simpa [stripNameCI] using h, rfl⟩
    · rintro ⟨pre, hs, hpre⟩
      have : pre = [] := by simpa using congrArg List.length hpre
      subst this
      simpa [stripNameCI] using hs
  | cons c n ih =>
    intro s t
    cases s with
    | nil =>
      simp only [stripNameCI]
      constructor
      · intro h; exact absurd h (by simp)
      · rintro ⟨pre, hs, hpre⟩
        have := congrArg List.length hs
        have := congrArg List.length hpre
        simp at *
        omega
    | cons d s =>
      simp only [stripNameCI]
      by_cases hd : lowerChar d = lowerChar c
      · rw [if_pos hd, ih]
        constructor
        · rintro ⟨pre, hs, hpre⟩
          exact ⟨d :: pre, by simp [hs], by simp [hpre, hd]⟩
        · rintro ⟨pre, hs, hpre⟩
          cases pre with
          | nil => simp at hpre
          | cons e pre =>
            simp only [List.cons_append, List.cons.injEq] at hs
            simp only [List.map_cons, List.cons.injEq] at hpre
            exact ⟨pre, hs.2, hpre.2⟩
      · rw [if_neg hd]
        constructor
        · intro h; exact absurd h (by simp)
        · rintro ⟨pre, hs, hpre⟩
          cases pre with
          | nil => simp at hpre
          | cons e pre =>
            simp only [List.cons_append, List.cons.injEq] at hs
            simp only [List.map_cons, List.cons.injEq] at hpre
            exact absurd (hs.1 ▸ hpre.1) hd

theorem stripNameCI_append {n pre t : List Char} (h : pre.map lowerChar = n.map lowerChar) :
    stripNameCI n (pre ++ t) = some t :=
  stripNameCI_eq_some.mpr ⟨pre, rfl, h⟩

theorem stripNameCI_self_append (n t : List Char) : stripNameCI n (n ++ t) = some t :=
  stripNameCI_append rfl

/-- Every character of a case-insensitive match of an all-lower-case name
lower-cases to a lower-case letter. -/
theorem ciEq_mem_lower {pre n : List Char} (h : pre.map lowerChar = n.map lowerChar)
    (hlow : allLowerAlpha n) {c : Char} (hc : c ∈ pre) :
    97 ≤ (lowerChar c).toNat ∧ (lowerChar c).toNat ≤ 122 := by
  have : lowerChar c ∈ n.map lowerChar := h ▸ List.mem_map_of_mem lowerChar hc
  obtain ⟨d, hd, hde⟩ := List.mem_map.mp this
  obtain ⟨h1, h2⟩ := hlow d hd
  rw [← hde, lowerChar_of_lower h1 h2]
  exact ⟨h1, h2⟩

/-! ### List take/drop helpers -/

theorem take_len_append (a b : List Char) : (a ++ b).take a.length = a := by
  induction a with
  | nil => rfl
  | cons c a ih => simp [List.take, ih]

theorem take_len_add_append (a b : List Char) (j : Nat) :
    (a ++ b).take (a.length + j) = a ++ b.take j := by
  induction a with
  | nil => simp
  | cons c a ih => simpa [List.take, Nat.succ_add] using ih

theorem take_le_append {j : Nat} (a b : List Char) (h : j ≤ a.length) :
    (a ++ b).take j = a.take j := by
  induction a generalizing j with
  | nil =>
    have : j = 0 := Nat.le_zero.mp h
    subst this
    rfl
  | cons c a ih =>
    cases j with
    | zero => rfl
    | succ j => simpa [List.take] using ih (by simpa using h)

theorem drop_len_append (a b : List Char) : (a ++ b).drop a.length = b := by
  induction a with
  | nil => rfl
  | cons c a ih => simp [List.drop, ih]

/-! ### takeWhile / dropWhile helpers -/

theorem dropWhile_append_all {p : Char → Bool} {w l : List Char}
    (hw : ∀ c ∈ w, p c = true) : (w ++ l).dropWhile p = l.dropWhile p := by
  induction w with
  | nil => rfl
  | cons c w ih =>
    have hc : p c = true := hw c (by simp)
    simpa [List.dropWhile, hc] using ih (fun d hd => hw d (by simp [hd]))

theorem takeWhile_append_cons {p : Char → Bool} {v q : List Char} {x : Char}
    (hv : ∀ c ∈ v, p c = true) (hx : p x = false) :
    (v ++ x :: q).takeWhile p = v := by
  induction v with
  | nil => simp [List.takeWhile, hx]
  | cons c v ih =>
    have hc : p c = true := hv c (by simp)
    simpa [List.takeWhile, hc] using ih (fun d hd => hv d (by simp [hd]))

theorem dropWhile_append_cons {p : Char → Bool} {v q : List Char} {x : Char}
    (hv : ∀ c ∈ v, p c = true) (hx : p x = false) :
    (v ++ x :: q).dropWhile p = x :: q := by
  induction v with
  | nil => simp [List.dropWhile, hx]
  | cons c v ih =>
    have hc : p c = true := hv c (by simp)
    simpa [List.dropWhile, hc] using ih (fun d hd => hv d (by simp [hd]))

/-! ### `searchWith` lemmas -/

theorem searchWith_cons (m : List Char → Option (List Char)) (c : Char) (s : List Char) :
    searchWith m (c :: s) =
      match m (c :: s) with
      | some v => some v
      | none => searchWith m s := rfl

theorem searchWith_pos {m : List Char → Option (List Char)} {c : Char} {s v : List Char}
    (h : m (c :: s) = some v) : searchWith m (c :: s) = some v := by
  rw [searchWith_cons, h]

theorem searchWith_eq_none {m : List Char → Option (List Char)} :
    ∀ {s : List Char}, (∀ t, t <:+ s → m t = none) → searchWith m s = none := by
  intro s
  induction s with
  | nil => intro h; simpa [searchWith] using h [] (by simp)
  | cons c s ih =>
    intro h
    rw [searchWith_cons, h (c :: s) (by simp)]
    exact ih (fun t ht => h t (ht.trans (List.suffix_cons c s)))

theorem searchWith_append {m : List Char → Option (List Char)} {p s : List Char}
    (h : ∀ t, t <:+ p → t ≠ [] → m (t ++ s) = none) :
    searchWith m (p ++ s) = searchWith m s := by
  induction p with
  | nil => rfl
  | cons c p ih =>
    have hm := h (c :: p) (by simp) (by simp)
    rw [List.cons_append] at hm
    rw [List.cons_append, searchWith_cons, hm]
    exact ih (fun t ht hne => h t (ht.trans (List.suffix_cons c p)) hne)

/-- Decompose a suffix of an append. -/
theorem suffix_split {t a b : List Char} (h : t <:+ a ++ b) :
    t <:+ b ∨ ∃ a1, a1 <:+ a ∧ a1 ≠ [] ∧ t = a1 ++ b := by
  obtain ⟨u, hu⟩ := h
  by_cases hlen : a.length ≤ u.length
  · left
    obtain ⟨j, hj⟩ := Nat.exists_eq_add_of_le hlen
    have : u.drop a.length ++ t = b := by
      have := congrArg (List.drop a.length) hu
      rwa [List.drop_append_of_le_length hlen, drop_len_append] at this
    exact ⟨u.drop a.length, this⟩
  · right
    push_neg at hlen
    refine ⟨a.drop u.length, ⟨a.take u.length, by simp⟩, ?_, ?_⟩
    · intro hnil
      have := congrArg List.length hnil
      simp at this
      omega
    · have := congrArg (List.drop u.length) hu
      rwa [List.drop_append_of_le_length (le_of_lt hlen), drop_len_append] at this

/-! ### Case-insensitive occurrence lemmas -/

theorem ciOccurs_false_elim {n p t : List Char} (h : ciOccurs n p = false)
    (ht : t <:+ p) : isCIPrefixOf n t = false := by
  unfold ciOccurs at h
  rw [List.any_eq_false] at h
  simpa using h t ((List.mem_tails t p).mpr ht)

theorem ciOccurs_of_take {n p t : List Char} (ht : t <:+ p)
    (hm : (t.take n.length).map lowerChar = n.map lowerChar) : ciOccurs n p = true := by
  unfold ciOccurs
  rw [List.any_eq_true]
  refine ⟨t, (List.mem_tails t p).mpr ht, ?_⟩
  unfold isCIPrefixOf
  have hst : stripNameCI n (t.take n.length ++ t.drop n.length) = some (t.drop n.length) :=
    stripNameCI_append hm
  rw [List.take_append_drop] at hst
  rw [hst]
  rfl

/-! ### Anchored match lemmas -/

theorem expectChar_cons_self (c : Char) (t : List Char) : expectChar c (c :: t) = some t := by
  simp [expectChar]

theorem braceValue_closed {v q : List Char} (hv : v ≠ []) (hvb : '\x7d' ∉ v) :
    braceValue (v ++ '\x7d' :: q) = some v := by
  have hvp : ∀ c ∈ v, (fun x => decide (x ≠ '\x7d')) c = true := by
    intro c hc
    simp only [decide_eq_true_eq]
    intro heq
    exact hvb (heq ▸ hc)
  unfold braceValue
  rw [dropWhile_append_cons hvp (by decide), takeWhile_append_cons hvp (by decide)]
  simp [hv]

theorem braceValue_immediate (q : List Char) : braceValue ('\x7d' :: q) = none := by
  simp [braceValue, List.dropWhile, List.takeWhile]

theorem afterName_value {w1 w2 v q : List Char}
    (hw1 : ∀ c ∈ w1, isSpace c = true) (hw2 : ∀ c ∈ w2, isSpace c = true)
    (hv : v ≠ []) (hvb : '\x7d' ∉ v) :
    afterName (w1 ++ '=' :: (w2 ++ '\x7b' :: (v ++ '\x7d' :: q))) = some v := by
  unfold afterName
  rw [dropWhile_append_cons hw1 (by decide), expectChar_cons_self, Option.some_bind,
    dropWhile_append_cons hw2 (by decide), expectChar_cons_self, Option.some_bind]
  exact braceValue_closed hv hvb

theorem afterName_empty {w1 w2 q : List Char}
    (hw1 : ∀ c ∈ w1, isSpace c = true) (hw2 : ∀ c ∈ w2, isSpace c = true) :
    afterName (w1 ++ '=' :: (w2 ++ '\x7b' :: '\x7d' :: q)) = none := by
  unfold afterName
  rw [dropWhile_append_cons hw1 (by decide), expectChar_cons_self, Option.some_bind,
    dropWhile_append_cons hw2 (by decide), expectChar_cons_self, Option.some_bind]
  exact braceValue_immediate q

theorem matchFieldAt_value {n w1 w2 v q : List Char}
    (hw1 : ∀ c ∈ w1, isSpace c = true) (hw2 : ∀ c ∈ w2, isSpace c = true)
    (hv : v ≠ []) (hvb : '\x7d' ∉ v) :
    matchFieldAt n (n ++ (w1 ++ '=' :: (w2 ++ '\x7b' :: (v ++ '\x7d' :: q)))) = some v := by
  unfold matchFieldAt
  rw [stripNameCI_self_append]
  exact afterName_value hw1 hw2 hv hvb

theorem matchFieldAt_empty_value {n w1 w2 q : List Char}
    (hw1 : ∀ c ∈ w1, isSpace c = true) (hw2 : ∀ c ∈ w2, isSpace c = true) :
    matchFieldAt n (n ++ (w1 ++ '=' :: (w2 ++ '\x7b' :: '\x7d' :: q))) = none := by
  unfold matchFieldAt
  rw [stripNameCI_self_append]
  exact afterName_empty hw1 hw2

/-- An anchored match fails when the first character does not lower-case to
a lower-case letter. -/
theorem matchFieldAt_cons_none {n : List Char} {c : Char} {t : List Char}
    (hlow : allLowerAlpha n) (hn : n ≠ [])
    (hc : ¬(97 ≤ (lowerChar c).toNat ∧ (lowerChar c).toNat ≤ 122)) :
    matchFieldAt n (c :: t) = none := by
  unfold matchFieldAt
  cases h : stripNameCI n (c :: t) with
  | none => rfl
  | some t2 =>
    exfalso
    obtain ⟨pre, hs, hpre⟩ := stripNameCI_eq_some.mp h
    cases pre with
    | nil =>
      have := congrArg List.length hpre
      simp at this
      exact hn (List.length_eq_zero.mp this.symm)
    | cons d pre =>
      simp only [List.cons_append, List.cons.injEq] at hs
      exact hc (hs.1 ▸ ciEq_mem_lower hpre hlow (by simp))

/-- An anchored match fails on a suffix of a string in which the name does
not occur case-insensitively. -/
theorem matchFieldAt_none_of_not_occurs {n q t : List Char}
    (hq : ciOccurs n q = false) (ht : t <:+ q) : matchFieldAt n t = none := by
  unfold matchFieldAt
  cases h : stripNameCI n t with
  | none => rfl
  | some t2 =>
    exfalso
    have : isCIPrefixOf n t = true := by unfold isCIPrefixOf; rw [h]; rfl
    rw [ciOccurs_false_elim hq ht] at this
    exact Bool.noConfusion this

/-! ### Failure of the anchored match at every non-field position -/

/-- An anchored match cannot start inside a prefix `p1` on which the name is
not a case-insensitive prefix, continuing into `m ++ W` (where the head of
`W` is not a letter). -/
theorem matchFieldAt_overlap_none {n m W p1 : List Char}
    (hp1 : p1 ≠ []) (hlow : allLowerAlpha n)
    (hpf : isCIPrefixOf n p1 = false)
    (hcross : crossFree n m)
    (hW : ∀ c, W.head? = some c → ¬(97 ≤ (lowerChar c).toNat ∧ (lowerChar c).toNat ≤ 122))
    (hWne : W ≠ []) :
    matchFieldAt n (p1 ++ (m ++ W)) = none := by
  unfold matchFieldAt
  cases h : stripNameCI n (p1 ++ (m ++ W)) with
  | none => rfl
  | some t2 =>
    exfalso
    obtain ⟨pre, hs, hpre⟩ := stripNameCI_eq_some.mp h
    have hprelen : pre.length = n.length := by
      have := congrArg List.length hpre
      simpa using this
    have hpre_take : pre = (p1 ++ (m ++ W)).take n.length := by
      have h2 := congrArg (List.take n.length) hs
      rw [← hprelen, take_len_append, hprelen] at h2
      exact h2.symm
    by_cases hcase : n.length ≤ p1.length
    · -- the match would lie entirely inside p1
      have hpre_eq : pre = p1.take n.length := by
        rw [hpre_take, take_le_append _ _ hcase]
      have h3 : stripNameCI n (p1.take n.length ++ p1.drop n.length) = some (p1.drop n.length) :=
        stripNameCI_append (hpre_eq ▸ hpre)
      rw [List.take_append_drop] at h3
      have h4 : isCIPrefixOf n p1 = true := by unfold isCIPrefixOf; rw [h3]; rfl
      rw [hpf] at h4
      exact Bool.noConfusion h4
    · push_neg at hcase
      by_cases hkm : n.length - p1.length ≤ m.length
      · -- the match would end inside m: crossFree is violated
        have hpre_eq2 : pre = p1 ++ m.take (n.length - p1.length) := by
          rw [hpre_take]
          have hk : n.length = p1.length + (n.length - p1.length) := by omega
          conv_lhs => rw [hk]
          rw [take_len_add_append, take_le_append _ _ hkm]
        have hsplit : (n.take p1.length).map lowerChar ++ (n.drop p1.length).map lowerChar
            = n.map lowerChar := by
          rw [← List.map_append, List.take_append_drop]
        rw [hpre_eq2, List.map_append, ← hsplit] at hpre
        have hlen2 : (p1.map lowerChar).length = ((n.take p1.length).map lowerChar).length := by
          simp
          omega
        have h5 := (List.append_inj hpre hlen2).2
        exact hcross p1.length hcase (by
          cases p1 with
          | nil => exact absurd rfl hp1
          | cons a p1 => simp) hkm h5
      · -- the match would run past m into W, whose head is not a letter
        push_neg at hkm
        cases W with
        | nil => exact hWne rfl
        | cons c W2 =>
          obtain ⟨r, hr⟩ := Nat.exists_eq_add_of_le
            (show 1 ≤ n.length - p1.length - m.length by omega)
          have hkk : n.length = (p1 ++ m).length + (r + 1) := by simp; omega
          have htake : ((p1 ++ m) ++ c :: W2).take n.length
              = (p1 ++ m) ++ (c :: W2).take (r + 1) := by
            conv_lhs => rw [hkk]
            rw [take_len_add_append]
          have hcmem : c ∈ pre := by
            rw [hpre_take, ← List.append_assoc, htake, List.take_succ_cons]
            simp
          exact hW c rfl (ciEq_mem_lower hpre hlow hcmem)

/-- An anchored match cannot start strictly inside `m` (at offset `j ≥ 1`),
when `innerFree n m` holds and the head of `W` is not a letter. -/
theorem matchFieldAt_inner_none {n m W : List Char} {j : Nat}
    (hj1 : 1 ≤ j) (hj2 : j < m.length) (hlow : allLowerAlpha n)
    (hinner : innerFree n m)
    (hW : ∀ c, W.head? = some c → ¬(97 ≤ (lowerChar c).toNat ∧ (lowerChar c).toNat ≤ 122))
    (hWne : W ≠ []) :
    matchFieldAt n (m.drop j ++ W) = none := by
  unfold matchFieldAt
  cases h : stripNameCI n (m.drop j ++ W) with
  | none => rfl
  | some t2 =>
    exfalso
    obtain ⟨pre, hs, hpre⟩ := stripNameCI_eq_some.mp h
    have hprelen : pre.length = n.length := by
      have := congrArg List.length hpre
      simpa using this
    have hpre_take : pre = (m.drop j ++ W).take n.length := by
      have h2 := congrArg (List.take n.length) hs
      rw [← hprelen, take_len_append, hprelen] at h2
      exact h2.symm
    by_cases hcase : n.length ≤ m.length - j
    · have hpre_eq : pre = (m.drop j).take n.length := by
        rw [hpre_take, take_le_append _ _ (by simp; omega)]
      exact hinner j hj2 hj1 (by omega) (hpre_eq ▸ hpre)
    · push_neg at hcase
      cases W with
      | nil => exact hWne rfl
      | cons c W2 =>
        obtain ⟨r, hr⟩ := Nat.exists_eq_add_of_le
          (show 1 ≤ n.length - (m.length - j) by omega)
        have hkk : n.length = (m.drop j).length + (r + 1) := by simp; omega
        have htake : (m.drop j ++ c :: W2).take n.length
            = m.drop j ++ (c :: W2).take (r + 1) := by
          conv_lhs => rw [hkk]
          rw [take_len_add_append]
        have hcmem : c ∈ pre := by
          rw [hpre_take, htake, List.take_succ_cons]
          simp
        exact hW c rfl (ciEq_mem_lower hpre hlow hcmem)

/-- An anchored match of `n` fails at the start of `m ++ W` when `m` is not
itself a case-insensitive match of `n` there. -/
theorem matchFieldAt_head_cross_none {n m W : List Char}
    (hlow : allLowerAlpha n)
    (hnm : n.length ≤ m.length → (m.take n.length).map lowerChar ≠ n.map lowerChar)
    (hW : ∀ c, W.head? = some c → ¬(97 ≤ (lowerChar c).toNat ∧ (lowerChar c).toNat ≤ 122))
    (hWne : W ≠ []) :
    matchFieldAt n (m ++ W) = none := by
  unfold matchFieldAt
  cases h : stripNameCI n (m ++ W) with
  | none => rfl
  | some t2 =>
    exfalso
    obtain ⟨pre, hs, hpre⟩ := stripNameCI_eq_some.mp h
    have hprelen : pre.length = n.length := by
      have := congrArg List.length hpre
      simpa using this
    have hpre_take : pre = (m ++ W).take n.length := by
      have h2 := congrArg (List.take n.length) hs
      rw [← hprelen, take_len_append, hprelen] at h2
      exact h2.symm
    by_cases hcase : n.length ≤ m.length
    · have hpre_eq : pre = m.take n.length := by
        rw [hpre_take, take_le_append _ _ hcase]
      exact hnm hcase (hpre_eq ▸ hpre)
    · push_neg at hcase
      cases W with
      | nil => exact hWne rfl
      | cons c W2 =>
        obtain ⟨r, hr⟩ := Nat.exists_eq_add_of_le
          (show 1 ≤ n.length - m.length by omega)
        have hkk : n.length = m.length + (r + 1) := by omega
        have htake : (m ++ c :: W2).take n.length = m ++ (c :: W2).take (r + 1) := by
          conv_lhs => rw [hkk]
          rw [take_len_add_append]
        have hcmem : c ∈ pre := by
          rw [hpre_take, htake, List.take_succ_cons]
          simp
        exact hW c rfl (ciEq_mem_lower hpre hlow hcmem)

/-- The head of `w1 ++ '=' :: rest` (with `w1` all whitespace) is not a
letter. -/
theorem ws_eq_head_not_letter (w1 rest : List Char)
    (hw1 : ∀ c ∈ w1, isSpace c = true) :
    ∀ c, (w1 ++ '=' :: rest).head? = some c →
      ¬(97 ≤ (lowerChar c).toNat ∧ (lowerChar c).toNat ≤ 122) := by
  cases w1 with
  | nil =>
    intro c hc
    simp only [List.nil_append, List.head?_cons, Option.some.injEq] at hc
    subst hc
    decide
  | cons a w1 =>
    intro c hc
    simp only [List.cons_append, List.head?_cons, Option.some.injEq] at hc
    rw [← hc]
    obtain ⟨heq, hlet⟩ := isSpace_elim (hw1 a (by simp))
    rw [heq]
    exact hlet

/-- Master lemma: a field search over an entry of the shape
`p ++ m ++ w1 ++ = ++ w2 ++ \x7b\x7d ++ q` finds nothing, provided the
name `n` occurs (case-insensitively) neither in `p` nor in `q`, cannot
start strictly inside or just before `m`, and the anchored match at `m`
itself fails. -/
theorem searchField_none_sweep {n m p q w1 w2 : List Char}
    (hlow : allLowerAlpha n) (hn : n ≠ [])
    (hw1 : ∀ c ∈ w1, isSpace c = true) (hw2 : ∀ c ∈ w2, isSpace c = true)
    (hp : ciOccurs n p = false) (hq : ciOccurs n q = false)
    (hcross : crossFree n m) (hinner : innerFree n m)
    (hhead : matchFieldAt n (m ++ (w1 ++ '=' :: (w2 ++ '\x7b' :: '\x7d' :: q))) = none) :
    searchField n (p ++ (m ++ (w1 ++ '=' :: (w2 ++ '\x7b' :: '\x7d' :: q)))) = none := by
  unfold searchField
  apply searchWith_eq_none
  intro t ht
  have hWhead := ws_eq_head_not_letter w1 (w2 ++ '\x7b' :: '\x7d' :: q) hw1
  have hWne : w1 ++ '=' :: (w2 ++ '\x7b' :: '\x7d' :: q) ≠ [] := by
    cases w1 <;> simp
  rcases suffix_split ht with ht1 | ⟨p1, hp1s, hp1ne, rfl⟩
  · rcases suffix_split ht1 with ht2 | ⟨m1, hm1s, hm1ne, rfl⟩
    · rcases suffix_split ht2 with ht3 | ⟨ws, hwss, hwsne, rfl⟩
      · rcases List.suffix_cons_iff.mp ht3 with rfl | ht4
        · exact matchFieldAt_cons_none hlow hn (by decide)
        · rcases suffix_split ht4 with ht5 | ⟨ws2, hws2s, hws2ne, rfl⟩
          · rcases List.suffix_cons_iff.mp ht5 with rfl | ht6
            · exact matchFieldAt_cons_none hlow hn (by decide)
            · rcases List.suffix_cons_iff.mp ht6 with rfl | ht7
              · exact matchFieldAt_cons_none hlow hn (by decide)
              · exact matchFieldAt_none_of_not_occurs hq ht7
          · cases ws2 with
            | nil => exact absurd rfl hws2ne
            | cons a ws2 =>
              obtain ⟨heq, hlet⟩ := isSpace_elim (hw2 a (hws2s.subset (by simp)))
              exact matchFieldAt_cons_none hlow hn (by rw [heq]; exact hlet)
      · cases ws with
        | nil => exact absurd rfl hwsne
        | cons a ws =>
          obtain ⟨heq, hlet⟩ := isSpace_elim (hw1 a (hwss.subset (by simp)))
          exact matchFieldAt_cons_none hlow hn (by rw [heq]; exact hlet)
    · by_cases hm1m : m1 = m
      · subst hm1m
        exact hhead
      · obtain ⟨u, hu⟩ := hm1s
        have hune : u ≠ [] := by
          intro h0
          rw [h0] at hu
          exact hm1m (by simpa using hu)
        have hm1drop : m1 = m.drop u.length := by
          have := congrArg (List.drop u.length) hu
          rwa [drop_len_append] at this
        have hulen : u.length + m1.length = m.length := by
          have := congrArg List.length hu
          simpa using this
        rw [hm1drop]
        refine matchFieldAt_inner_none ?_ ?_ hlow hinner hWhead hWne
        · cases u with
          | nil => exact absurd rfl hune
          | cons a u => simp
        · cases m1 with
          | nil => exact absurd rfl hm1ne
          | cons a m1 => simp at hulen; omega
  · exact matchFieldAt_overlap_none hp1ne hlow
      (ciOccurs_false_elim hp hp1s) hcross hWhead hWne

/-- A field search over an entry of the shape
`p ++ n ++ w1 ++ = ++ w2 ++ \x7b ++ v ++ \x7d ++ q`, where the name does
not occur case-insensitively in `p`, returns exactly the brace-delimited
value `v`. -/
theorem searchField_value_skip {n p w1 w2 v q : List Char}
    (hlow : allLowerAlpha n) (hn : n ≠ [])
    (hw1 : ∀ c ∈ w1, isSpace c = true) (hw2 : ∀ c ∈ w2, isSpace c = true)
    (hv : v ≠ []) (hvb : '\x7d' ∉ v)
    (hp : ciOccurs n p = false) (hcross : crossFree n n) :
    searchField n (p ++ (n ++ (w1 ++ '=' :: (w2 ++ '\x7b' :: (v ++ '\x7d' :: q))))) = some v := by
  unfold searchField
  have hWhead := ws_eq_head_not_letter w1 (w2 ++ '\x7b' :: (v ++ '\x7d' :: q)) hw1
  have hWne : w1 ++ '=' :: (w2 ++ '\x7b' :: (v ++ '\x7d' :: q)) ≠ [] := by
    cases w1 <;> simp
  rw [searchWith_append (by
    intro t ht htne
    exact matchFieldAt_overlap_none htne hlow (ciOccurs_false_elim hp ht)
      hcross hWhead hWne)]
  cases n with
  | nil => exact absurd rfl hn
  | cons c n0 =>
    rw [List.cons_append]
    apply searchWith_pos
    rw [← List.cons_append]
    exact matchFieldAt_value hw1 hw2 hv hvb

/-! ### Bridging lemmas: record fields of `parse_bibtex_entry` -/

theorem fieldStr_some {name l v : List Char} (h : searchField name l = some v) :
    fieldStr name l = String.mk (pyStrip v) := by
  simp [fieldStr, h]

theorem fieldStr_none {name l : List Char} (h : searchField name l = none) :
    fieldStr name l = "" := by
  simp [fieldStr, h]

theorem parse_title_eq (s : String) :
    (parse_bibtex_entry s).title = fieldStr titleName s.data := rfl

theorem parse_authors_eq (s : String) :
    (parse_bibtex_entry s).authors = fieldStr authorName s.data := rfl

theorem parse_id_none {s : String} (h : matchEntryId s.data = none) :
    (parse_bibtex_entry s).id = "" := by
  simp [parse_bibtex_entry, h]

theorem parse_id_some {s : String} {k : List Char} (h : matchEntryId s.data = some k) :
    (parse_bibtex_entry s).id = String.mk (pyStrip k) := by
  simp [parse_bibtex_entry, h]

theorem parse_abstract_some {s : String} {v : List Char}
    (h : searchField abstractName s.data = some v) :
    (parse_bibtex_entry s).abstract = String.mk (pyStrip v) := by
  simp [parse_bibtex_entry, h]

theorem parse_abstract_none {s : String} (h : searchField abstractName s.data = none) :
    (parse_bibtex_entry s).abstract = "Abstract not available." := by
  simp [parse_bibtex_entry, h]

theorem parse_venue_journal {s : String} {v : List Char}
    (h : searchField journalName s.data = some v) :
    (parse_bibtex_entry s).venue = String.mk (pyStrip v) := by
  simp [parse_bibtex_entry, h]

theorem parse_venue_booktitle {s : String} {v : List Char}
    (hj : searchField journalName s.data = none)
    (hb : searchField booktitleName s.data = some v) :
    (parse_bibtex_entry s).venue = String.mk (pyStrip v) := by
  simp [parse_bibtex_entry, hj, hb]

theorem parse_venue_empty {s : String} (hj : searchField journalName s.data = none)
    (hb : searchField booktitleName s.data = none) :
    (parse_bibtex_entry s).venue = "" := by
  simp [parse_bibtex_entry, hj, hb]

/-! ### Claim theorems -/

/-- C3 counterexample: the source stores `bib_content.strip()`, so for an
input with surrounding whitespace the stored source text is not the
verbatim input: parsing `" hi "` stores `"hi"`. -/
theorem c3_counterexample :
    (parse_bibtex_entry " hi ").bibtex = "hi" ∧ (parse_bibtex_entry " hi ").bibtex ≠ " hi " := by
  constructor
  · rfl
  · decide

/-- C3 (amended): the stored source-text field equals the original entry
text stripped of leading and trailing whitespace (and hence the verbatim
input whenever the input has no surrounding whitespace). -/
theorem c3_bibtex_stripped (s : String) :
    (parse_bibtex_entry s).bibtex = String.mk (pyStrip s.data) := rfl

/-- C4: venue resolution follows a strict priority — if the journal
pattern is located, the venue is its trimmed capture; otherwise, if the
booktitle pattern is located, the venue is its trimmed capture; otherwise
the venue is empty.  The two fields are never merged. -/
theorem c4_venue_priority (s : String) :
    (∀ v, searchField journalName s.data = some v →
        (parse_bibtex_entry s).venue = String.mk (pyStrip v)) ∧
    (searchField journalName s.data = none →
      ∀ v, searchField booktitleName s.data = some v →
        (parse_bibtex_entry s).venue = String.mk (pyStrip v)) ∧
    (searchField journalName s.data = none → searchField booktitleName s.data = none →
      (parse_bibtex_entry s).venue = "") :=
  ⟨fun _ hv => parse_venue_journal hv,
   fun hj _ hb => parse_venue_booktitle hj hb,
   fun hj hb => parse_venue_empty hj hb⟩

/-- C4 witness at concrete entries: both fields present gives the journal
value; booktitle only gives the booktitle value; neither gives `""`. -/
theorem c4_witness :
    (searchField journalName "@a\x7bk, journal = \x7bJ\x7d, booktitle = \x7bB\x7d\x7d".data
        = some ['J'] ∧
      (parse_bibtex_entry "@a\x7bk, journal = \x7bJ\x7d, booktitle = \x7bB\x7d\x7d").venue
        = String.mk (pyStrip ['J'])) ∧
    (searchField journalName "booktitle = \x7bB\x7d".data = none ∧
      searchField booktitleName "booktitle = \x7bB\x7d".data = some ['B'] ∧
      (parse_bibtex_entry "booktitle = \x7bB\x7d").venue = String.mk (pyStrip ['B'])) ∧
    (searchField journalName "x".data = none ∧ searchField booktitleName "x".data = none ∧
      (parse_bibtex_entry "x").venue = "") :=
  ⟨⟨by decide, (c4_venue_priority "@a\x7bk, journal = \x7bJ\x7d, booktitle = \x7bB\x7d\x7d").1
      ['J'] (by decide)⟩,
   ⟨by decide, by decide, (c4_venue_priority "booktitle = \x7bB\x7d").2.1 (by decide)
      ['B'] (by decide)⟩,
   ⟨by decide, by decide, (c4_venue_priority "x").2.2 (by decide) (by decide)⟩⟩

/-- C5: the parsed abstract is the trimmed capture of the abstract pattern
when it is located, and exactly the placeholder string when it is not. -/
theorem c5_abstract_resolution (s : String) :
    (∀ v, searchField abstractName s.data = some v →
        (parse_bibtex_entry s).abstract = String.mk (pyStrip v)) ∧
    (searchField abstractName s.data = none →
        (parse_bibtex_entry s).abstract = "Abstract not available.") :=
  ⟨fun _ hv => parse_abstract_some hv, fun h => parse_abstract_none h⟩

/-- C5 witness at concrete entries: a present abstract is trimmed, an
absent abstract gives the placeholder. -/
theorem c5_witness :
    (searchField abstractName "abstract = \x7b Hi \x7d".data = some [' ', 'H', 'i', ' '] ∧
      (parse_bibtex_entry "abstract = \x7b Hi \x7d").abstract
        = String.mk (pyStrip [' ', 'H', 'i', ' '])) ∧
    (searchField abstractName "x".data = none ∧
      (parse_bibtex_entry "x").abstract = "Abstract not available.") :=
  ⟨⟨by decide, (c5_abstract_resolution "abstract = \x7b Hi \x7d").1 [' ', 'H', 'i', ' ']
      (by decide)⟩,
   ⟨by decide, (c5_abstract_resolution "x").2 (by decide)⟩⟩

/-- C6: the worked scenario — parsing the given entry text yields the
six field values stated in the specification. -/
theorem c6_scenario_foo2020 :
    (parse_bibtex_entry "@article\x7bfoo2020, title = \x7bDeep Learning\x7d, author = \x7bJane Doe\x7d, year = \x7b2020\x7d, journal = \x7bNature\x7d\x7d").id = "foo2020" ∧
    (parse_bibtex_entry "@article\x7bfoo2020, title = \x7bDeep Learning\x7d, author = \x7bJane Doe\x7d, year = \x7b2020\x7d, journal = \x7bNature\x7d\x7d").title = "Deep Learning" ∧
    (parse_bibtex_entry "@article\x7bfoo2020, title = \x7bDeep Learning\x7d, author = \x7bJane Doe\x7d, year = \x7b2020\x7d, journal = \x7bNature\x7d\x7d").authors = "Jane Doe" ∧
    (parse_bibtex_entry "@article\x7bfoo2020, title = \x7bDeep Learning\x7d, author = \x7bJane Doe\x7d, year = \x7b2020\x7d, journal = \x7bNature\x7d\x7d").year = "2020" ∧
    (parse_bibtex_entry "@article\x7bfoo2020, title = \x7bDeep Learning\x7d, author = \x7bJane Doe\x7d, year = \x7b2020\x7d, journal = \x7bNature\x7d\x7d").venue = "Nature" ∧
    (parse_bibtex_entry "@article\x7bfoo2020, title = \x7bDeep Learning\x7d, author = \x7bJane Doe\x7d, year = \x7b2020\x7d, journal = \x7bNature\x7d\x7d").abstract = "Abstract not available." := by
  refine ⟨rfl, rfl, rfl, rfl, rfl, rfl⟩

/-- C8: the parser is total by construction (it is a Lean function into
`Entry`), and a leading declaration that does not match `@type\x7bkey,`
degrades to an empty identifier rather than an error; when the
declaration does match, the identifier is the trimmed key. -/
theorem c8_parser_total (s : String) :
    (matchEntryId s.data = none → (parse_bibtex_entry s).id = "") ∧
    (∀ k, matchEntryId s.data = some k →
        (parse_bibtex_entry s).id = String.mk (pyStrip k)) :=
  ⟨fun h => parse_id_none h, fun _ hk => parse_id_some hk⟩

/-- C8 witness at concrete entries: no declaration gives an empty id, a
well-formed declaration gives the key. -/
theorem c8_witness :
    (matchEntryId "hello".data = none ∧ (parse_bibtex_entry "hello").id = "") ∧
    (matchEntryId "@misc\x7bkey1,\x7d".data = some ['k', 'e', 'y', '1'] ∧
      (parse_bibtex_entry "@misc\x7bkey1,\x7d").id = String.mk (pyStrip ['k', 'e', 'y', '1'])) :=
  ⟨⟨by decide, (c8_parser_total "hello").1 (by decide)⟩,
   ⟨by decide, (c8_parser_total "@misc\x7bkey1,\x7d").2 ['k', 'e', 'y', '1'] (by decide)⟩⟩

/-- C2: for a category directory whose files are all citation (`.bib`)
files, the produced paper list has exactly one Citation Record per input
file, and the records are the parses of the files taken in lexicographic
filename order. -/
theorem c2_paper_list (dirName : String) (files : List (String × String))
    (hbib : ∀ f ∈ files, isBibFile f.1 = true) :
    (process_category dirName files).papers.length = files.length ∧
    ∃ l : List (String × String), l.Perm files ∧ List.Sorted byName l ∧
      (process_category dirName files).papers = l.map (fun f => parse_bibtex_entry f.2) := by
  have hfilter : files.filter (fun f => isBibFile f.1) = files :=
    List.filter_eq_self.mpr hbib
  have hpap : (process_category dirName files).papers
      = (List.insertionSort byName files).map (fun f => parse_bibtex_entry f.2) := by
    show (List.insertionSort byName (files.filter (fun f => isBibFile f.1))).map
        (fun f => parse_bibtex_entry f.2) = _
    rw [hfilter]
  constructor
  · rw [hpap, List.length_map]
    exact (List.perm_insertionSort byName files).length_eq
  · exact ⟨List.insertionSort byName files, List.perm_insertionSort byName files,
      List.sorted_insertionSort byName files, hpap⟩

/-- C2 witness: a two-file directory yields two records, in sorted
filename order. -/
theorem c2_witness :
    (∀ f ∈ [("b.bib", "x"), ("a.bib", "y")], isBibFile f.1 = true) ∧
    ((process_category "surveys" [("b.bib", "x"), ("a.bib", "y")]).papers.length = 2 ∧
      ∃ l : List (String × String), l.Perm [("b.bib", "x"), ("a.bib", "y")] ∧
        List.Sorted byName l ∧
        (process_category "surveys" [("b.bib", "x"), ("a.bib", "y")]).papers
          = l.map (fun f => parse_bibtex_entry f.2)) :=
  ⟨by decide, c2_paper_list "surveys" [("b.bib", "x"), ("a.bib", "y")] (by decide)⟩

/-- C7: a subdirectory whose name is not a key of the static category
table contributes no output JSON file and no entry to the summary
counts. -/
theorem c7_unknown_category_skipped (dirs : List (String × List (String × String)))
    (d : String × List (String × String)) (_hd : d ∈ dirs)
    (hunknown : CATEGORY_INFO.any (fun meta => meta.key = d.1) = false) :
    (∀ o ∈ (build_all_taxonomies dirs).1, o.1 ≠ d.1 ++ ".json") ∧
    (∀ st ∈ (build_all_taxonomies dirs).2, st.1 ≠ d.1) := by
  constructor
  · intro o ho heq
    simp only [build_all_taxonomies, List.mem_map] at ho
    obtain ⟨e, he, rfl⟩ := ho
    have hek := (List.mem_filter.mp he).2
    simp only [decide_eq_true_eq] at heq hek
    have hne : e.1 = d.1 := by
      have h2 := congrArg String.data heq
      simp only [String.data_append] at h2
      exact String.ext (List.append_cancel_right h2)
    rw [hne, hunknown] at hek
    exact Bool.noConfusion hek
  · intro st hst heq
    simp only [build_all_taxonomies, List.mem_map] at hst
    obtain ⟨e, he, rfl⟩ := hst
    have hek := (List.mem_filter.mp he).2
    simp only [decide_eq_true_eq] at heq hek
    rw [heq, hunknown] at hek
    exact Bool.noConfusion hek

/-- C7 witness: a root containing a single unrecognized subdirectory
produces no output file and no stats entry for it. -/
theorem c7_witness :
    (("unknown-cat", ([] : List (String × String)))
        ∈ [(("unknown-cat", ([] : List (String × String))))]) ∧
    CATEGORY_INFO.any (fun meta => meta.key = "unknown-cat") = false ∧
    (∀ o ∈ (build_all_taxonomies [("unknown-cat", [])]).1, o.1 ≠ "unknown-cat" ++ ".json") ∧
    (∀ st ∈ (build_all_taxonomies [("unknown-cat", [])]).2, st.1 ≠ "unknown-cat") :=
  ⟨by decide, by decide,
   (c7_unknown_category_skipped [("unknown-cat", [])] ("unknown-cat", []) (by decide)
      (by decide)).1,
   (c7_unknown_category_skipped [("unknown-cat", [])] ("unknown-cat", []) (by decide)
      (by decide)).2⟩

/-! ### Folder initializer lemmas -/

theorem setup_foldl_dirs_mono {ks : List String} {st : SetupState} {k0 : String}
    (h : k0 ∈ st.dirs) : k0 ∈ (ks.foldl setupStep st).dirs := by
  induction ks generalizing st with
  | nil => exact h
  | cons k ks ih =>
    rw [List.foldl_cons]
    apply ih
    unfold setupStep
    by_cases hk : k ∈ st.dirs
    · simpa [hk] using h
    · simp only [hk, if_false]
      exact List.mem_cons_of_mem k h

theorem setup_foldl_mem_keys {ks : List String} {st : SetupState} {k0 : String}
    (h : k0 ∈ ks) : k0 ∈ (ks.foldl setupStep st).dirs := by
  induction ks generalizing st with
  | nil => cases h
  | cons k ks ih =>
    rw [List.foldl_cons]
    rcases List.mem_cons.mp h with rfl | h2
    · apply setup_foldl_dirs_mono
      unfold setupStep
      by_cases hk : k0 ∈ st.dirs
      · rw [if_pos hk]
        exact hk
      · rw [if_neg hk]
        exact List.mem_cons_self k0 _
    · exact ih h2

theorem setup_foldl_all_mem (ks : List String) (st : SetupState)
    (h : ∀ k ∈ ks, k ∈ st.dirs) :
    ks.foldl setupStep st = ⟨st.dirs, st.created, st.existing + ks.length⟩ := by
  induction ks generalizing st with
  | nil => simp
  | cons k ks ih =>
    have hk : k ∈ st.dirs := h k (by simp)
    rw [List.foldl_cons]
    rw [show setupStep st k = { st with existing := st.existing + 1 } from by
      unfold setupStep
      rw [if_pos hk]]
    rw [ih { st with existing := st.existing + 1 } (fun k2 hk2 => h k2 (by simp [hk2]))]
    simp only [List.length_cons]
    congr 1
    omega

/-- A run over a directory set that already contains the citations root
and every category folder changes nothing and reports ten existing
folders. -/
theorem setup_main_all_present (D : List String)
    (hroot : "citations" ∈ D) (hkeys : ∀ k ∈ CATEGORIES_keys, k ∈ D) :
    setup_main D = ⟨D, 0, 10⟩ := by
  show CATEGORIES_keys.foldl setupStep ⟨ensureDir "citations" D, 0, 0⟩ = _
  rw [show ensureDir "citations" D = D from by
    unfold ensureDir
    rw [if_pos hroot]]
  rw [setup_foldl_all_mem CATEGORIES_keys ⟨D, 0, 0⟩ hkeys]
  rfl

/-- C9: the Folder Initializer is idempotent — running it again on the
directory state left by a first run changes no directories, and reports
zero created and all ten category folders as already existing. -/
theorem c9_setup_idempotent (d0 : List String) :
    setup_main (setup_main d0).dirs =
      { dirs := (setup_main d0).dirs, created := 0, existing := 10 } := by
  apply setup_main_all_present
  · unfold setup_main
    apply setup_foldl_dirs_mono
    unfold ensureDir
    by_cases h : "citations" ∈ d0 <;> simp [h]
  · intro k hk
    unfold setup_main
    exact setup_foldl_mem_keys hk

/-- C1 counterexample: the title pattern searches for the substring
`title` anywhere, so a preceding `booktitle` field shadows the real title
field: this entry has title field value `B`, but the parser extracts `A`
from the booktitle field. -/
theorem c1_counterexample :
    (parse_bibtex_entry "@a\x7bk, booktitle = \x7bA\x7d, title = \x7bB\x7d\x7d").title = "A" ∧
    (parse_bibtex_entry "@a\x7bk, booktitle = \x7bA\x7d, title = \x7bB\x7d\x7d").title ≠ "B" := by
  constructor
  · rfl
  · decide

/-- C1 (amended): for an entry text containing `title = \x7b ... \x7d`
with a nonempty brace-free value, where the characters of `title` do not
occur case-insensitively earlier in the entry (in particular no preceding
`booktitle` field), the parsed title is exactly the value between the
first `\x7b` and the next `\x7d` after the field name, trimmed of
surrounding whitespace. -/
theorem c1_title_extraction (p w1 w2 v q : List Char)
    (hw1 : ∀ c ∈ w1, isSpace c = true) (hw2 : ∀ c ∈ w2, isSpace c = true)
    (hv : v ≠ []) (hvb : '\x7d' ∉ v)
    (hp : ciOccurs titleName p = false) :
    (parse_bibtex_entry (String.mk
        (p ++ (titleName ++ (w1 ++ '=' :: (w2 ++ '\x7b' :: (v ++ '\x7d' :: q))))))).title
      = String.mk (pyStrip v) := by
  rw [parse_title_eq]
  exact fieldStr_some
    (searchField_value_skip (by decide) (by decide) hw1 hw2 hv hvb hp (by decide))

/-- C1 witness: a concrete entry with a title field and a harmless
preamble. -/
theorem c1_witness :
    (∀ c ∈ [' '], isSpace c = true) ∧
    (['D', 'L'] : List Char) ≠ [] ∧ '\x7d' ∉ (['D', 'L'] : List Char) ∧
    ciOccurs titleName ['@', 'a', '\x7b', 'k', ',', ' '] = false ∧
    (parse_bibtex_entry (String.mk
        (['@', 'a', '\x7b', 'k', ',', ' '] ++ (titleName ++
          ([' '] ++ '=' :: ([' '] ++ '\x7b' :: (['D', 'L'] ++ '\x7d' :: ['\x7d']))))))).title
      = String.mk (pyStrip ['D', 'L']) :=
  ⟨by decide, by decide, by decide, by decide,
   c1_title_extraction ['@', 'a', '\x7b', 'k', ',', ' '] [' '] [' '] ['D', 'L'] ['\x7d']
     (by decide) (by decide) (by decide) (by decide) (by decide)⟩

/-- C10 counterexample: an empty-valued field is not simply "absent" — the
search continues and can match a later occurrence of the same field name,
so an entry with `title = \x7b\x7d` followed by `title = \x7bLater\x7d`
parses the title as `Later`, not `""`. -/
theorem c10_counterexample :
    (parse_bibtex_entry "@a\x7bk, title = \x7b\x7d, title = \x7bLater\x7d\x7d").title
      = "Later" ∧
    (parse_bibtex_entry "@a\x7bk, title = \x7b\x7d, title = \x7bLater\x7d\x7d").title ≠ "" := by
  constructor
  · rfl
  · decide

/-- C10 (amended): when a field is present with an empty brace-delimited
value and its field name occurs nowhere else in the entry text
(case-insensitively; for the venue also counting the sibling field), the
parser treats the field as absent: the abstract degrades to the
placeholder and title/authors/venue degrade to the empty string, because
the extraction patterns require at least one character inside the
braces. -/
theorem c10_empty_value_absent (p q w1 w2 : List Char)
    (hw1 : ∀ c ∈ w1, isSpace c = true) (hw2 : ∀ c ∈ w2, isSpace c = true) :
    (ciOccurs titleName p = false → ciOccurs titleName q = false →
      (parse_bibtex_entry (emptyFieldEntry p titleName w1 w2 q)).title = "") ∧
    (ciOccurs authorName p = false → ciOccurs authorName q = false →
      (parse_bibtex_entry (emptyFieldEntry p authorName w1 w2 q)).authors = "") ∧
    (ciOccurs abstractName p = false → ciOccurs abstractName q = false →
      (parse_bibtex_entry (emptyFieldEntry p abstractName w1 w2 q)).abstract
        = "Abstract not available.") ∧
    (ciOccurs journalName p = false → ciOccurs journalName q = false →
      ciOccurs booktitleName p = false → ciOccurs booktitleName q = false →
      (parse_bibtex_entry (emptyFieldEntry p journalName w1 w2 q)).venue = "" ∧
      (parse_bibtex_entry (emptyFieldEntry p booktitleName w1 w2 q)).venue = "") := by
  have hWne : w1 ++ '=' :: (w2 ++ '\x7b' :: '\x7d' :: q) ≠ [] := by
    cases w1 <;> simp
  have hself : ∀ n : List Char, allLowerAlpha n → n ≠ [] → crossFree n n → innerFree n n →
      ciOccurs n p = false → ciOccurs n q = false →
      searchField n (emptyFieldEntry p n w1 w2 q).data = none := by
    intro n hlow hn hcross hinner hcp hcq
    exact searchField_none_sweep hlow hn hw1 hw2 hcp hcq hcross hinner
      (matchFieldAt_empty_value hw1 hw2)
  refine ⟨?_, ?_, ?_, ?_⟩
  · intro hcp hcq
    rw [parse_title_eq]
    exact fieldStr_none (hself titleName (by decide) (by decide) (by decide) (by decide) hcp hcq)
  · intro hcp hcq
    rw [parse_authors_eq]
    exact fieldStr_none (hself authorName (by decide) (by decide) (by decide) (by decide) hcp hcq)
  · intro hcp hcq
    exact parse_abstract_none
      (hself abstractName (by decide) (by decide) (by decide) (by decide) hcp hcq)
  · intro hjp hjq hbp hbq
    constructor
    · refine parse_venue_empty
        (hself journalName (by decide) (by decide) (by decide) (by decide) hjp hjq) ?_
      exact searchField_none_sweep (by decide) (by decide) hw1 hw2 hbp hbq
        (by decide) (by decide)
        (matchFieldAt_head_cross_none (by decide) (fun h => absurd h (by decide))
          (ws_eq_head_not_letter w1 (w2 ++ '\x7b' :: '\x7d' :: q) hw1) hWne)
    · refine parse_venue_empty ?_
        (hself booktitleName (by decide) (by decide) (by decide) (by decide) hbp hbq)
      exact searchField_none_sweep (by decide) (by decide) hw1 hw2 hjp hjq
        (by decide) (by decide)
        (matchFieldAt_head_cross_none (by decide) (fun _ => by decide)
          (ws_eq_head_not_letter w1 (w2 ++ '\x7b' :: '\x7d' :: q) hw1) hWne)

/-- C10 witness: a concrete entry with a single empty abstract field. -/
theorem c10_witness :
    (∀ c ∈ [' '], isSpace c = true) ∧
    ciOccurs abstractName ['@', 'a', '\x7b', 'k', ',', ' '] = false ∧
    ciOccurs abstractName ['\x7d'] = false ∧
    (parse_bibtex_entry
        (emptyFieldEntry ['@', 'a', '\x7b', 'k', ',', ' '] abstractName [' '] [] ['\x7d'])).abstract
      = "Abstract not available." :=
  ⟨by decide, by decide, by decide,
   (c10_empty_value_absent ['@', 'a', '\x7b', 'k', ',', ' '] ['\x7d'] [' '] []
      (by decide) (by decide)).2.2.1 (by decide) (by decide)⟩

end BibTax
